import Mathlib

/-!
Verification of the set-type registry and resolution engine of
`lib/types.c` (userspace ipset library): the type registry
(`ipset_type_add`), the set cache (`ipset_cache_add` / `_del` /
`_rename` / `_swap`) and the kernel revision negotiation
(`create_type_get`, `adt_type_get`).

The C linked lists are modelled as Lean lists; the global registry and
cache become explicit arguments and results.  Machine integers
(`uint8_t` revisions) are modelled as `Nat`; all comparisons in the
source are plain integer comparisons, no overflow is involved.  The
kernel transport (`ipset_cmd`) is modelled as an oracle argument: the
reply the kernel would deposit in the session data, or `none` for a
transport failure.
-/

/-- Address family: AF_UNSPEC, AF_INET, AF_INET6, AF_INET46. -/
inductive Family where
  | unspec
  | inet
  | inet6
  | inet46
  deriving DecidableEq, Repr

/-- Tri-state kernel compatibility memo: IPSET_KERNEL_UNKNOWN /
IPSET_KERNEL_OK / IPSET_KERNEL_MISMATCH. -/
inductive KernelCheck where
  | unchecked
  | ok
  | mismatch
  deriving DecidableEq, Repr

/-- Registered set-type descriptor, `struct ipset_type`: canonical
name, NULL-terminated alias array (field `alias` in the source, named
`aliases` here because `alias` is reserved in Lean), family, revision
and the memoized kernel check state.  The `maxsize` fields are never
read by the code under verification and are omitted. -/
structure IpsetType where
  name : String
  aliases : List String
  family : Family
  revision : Nat
  kernel_check : KernelCheck
  deriving DecidableEq, Repr

/-- Cached set, `struct ipset`: name plus the (borrowed) type and the
resolved family. -/
structure CachedSet where
  name : String
  type : IpsetType
  family : Family
  deriving DecidableEq, Repr

/-- Return code of the cache/registry mutators.  The C code reports
every failure of these functions as `-EEXIST` (with `ipset_type_add`
setting `errno = EEXIST`), both for duplicates and for missing
entries. -/
inductive ECode where
  | ok
  | eexist
  deriving DecidableEq, Repr

/-- `MATCH_FAMILY(type, f)`:
`f == AF_UNSPEC || type->family == f || type->family == AF_INET46`. -/
def match_family (t : IpsetType) (f : Family) : Bool :=
  f == Family.unspec || t.family == f || t.family == Family.inet46

/-- `ipset_match_typename`: the queried name equals the canonical name
or one of the aliases. -/
def ipset_match_typename (name : String) (t : IpsetType) : Bool :=
  name == t.name || t.aliases.any (fun a => name == a)

/-- Positional lookup in a list (our own `nth`, kept library-free so
that every lemma about it is proved here). -/
def idx {α : Type} : List α → Nat → Option α
  | [], _ => none
  | a :: _, 0 => some a
  | _ :: rest, n + 1 => idx rest n

/-- Index of the first entry with the given name, mirroring the
C scans `for (s = setlist; ...) if (STREQ(s->name, name))`. -/
def findName : List CachedSet → String → Option Nat
  | [], _ => none
  | e :: rest, nm =>
    if e.name = nm then some 0 else (findName rest nm).map (· + 1)

/-- Overwrite the name of the entry at position `i` in place,
mirroring `ipset_strncpy(s->name, to, IPSET_MAXNAMELEN)` on the node
the scan stopped at. -/
def setName : List CachedSet → Nat → String → List CachedSet
  | [], _, _ => []
  | e :: rest, 0, nm => { e with name := nm } :: rest
  | e :: rest, n + 1, nm => e :: setName rest n nm

/-- Unlink the node at position `i`, mirroring
`prev->next = match->next; free(match)`. -/
def eraseAt {α : Type} : List α → Nat → List α
  | [], _ => []
  | _ :: rest, 0 => rest
  | e :: rest, n + 1 => e :: eraseAt rest n

/-- The duplicate scan of `ipset_cache_add`:
`for (s = setlist; s->next != NULL; s = s->next)` checks the name of
every node EXCEPT the last one (whose `next` is NULL), then appends
the new node after the last.  `none` models the `-EEXIST` return. -/
def cache_add_loop (nm : String) (newe : CachedSet) :
    List CachedSet → Option (List CachedSet)
  | [] => none
  | [last] => some [last, newe]
  | s :: rest =>
    if s.name = nm then none else (cache_add_loop nm newe rest).map (s :: ·)

/-- `ipset_cache_add(name, type, family)` on cache `l`; returns the
C return code together with the cache after the call. -/
def ipset_cache_add (nm : String) (t : IpsetType) (f : Family)
    (l : List CachedSet) : ECode × List CachedSet :=
  match l with
  | [] => (ECode.ok, [⟨nm, t, f⟩])
  | s :: rest =>
    match cache_add_loop nm ⟨nm, t, f⟩ (s :: rest) with
    | none => (ECode.eexist, l)
    | some l2 => (ECode.ok, l2)

/-- `ipset_cache_del(name)`: with NULL the whole cache is freed;
otherwise the first node with the given name is unlinked, `-EEXIST`
if there is none. -/
def ipset_cache_del (nm : Option String) (l : List CachedSet) :
    ECode × List CachedSet :=
  match nm with
  | none => (ECode.ok, [])
  | some n =>
    match findName l n with
    | some i => (ECode.ok, eraseAt l i)
    | none => (ECode.eexist, l)

/-- `ipset_cache_rename(from, to)`: the first node named `from` gets
its name overwritten with `to`; `-EEXIST` if there is none.  No
collision check against an existing `to` is performed. -/
def ipset_cache_rename (from_ to_ : String) (l : List CachedSet) :
    ECode × List CachedSet :=
  match findName l from_ with
  | some i => (ECode.ok, setName l i to_)
  | none => (ECode.eexist, l)

/-- `ipset_cache_swap(from, to)`: one scan records the first node
named `from` (`a`) and the first named `to` (`b`); if both exist,
`a->name` is overwritten with `to` and then `b->name` with `from`,
otherwise `-EEXIST` and no node is touched. -/
def ipset_cache_swap (from_ to_ : String) (l : List CachedSet) :
    ECode × List CachedSet :=
  match findName l from_, findName l to_ with
  | some i, some j => (ECode.ok, setName (setName l i to_) j from_)
  | _, _ => (ECode.eexist, l)

/-- Outcome of one pass of the `ipset_type_add` insertion loop:
the new list when one of the splice branches fired, `dup` for the
`errno = EEXIST` returns, `fallthrough` when the loop ran off the end
(the caller then pushes the new type at the head of the whole list). -/
inductive AddOutcome where
  | done (l : List IpsetType)
  | dup
  | fallthrough
  deriving DecidableEq, Repr

/-- The insertion loop of `ipset_type_add`, kept branch for branch:
for each node `t` it first compares `t` itself against the new type
(equal revision: duplicate; smaller revision: splice in before `t`),
then peeks at `t->next` (equal revision: duplicate; smaller revision:
splice in after `t`), and otherwise advances. -/
def type_add_loop (ty : IpsetType) : List IpsetType → AddOutcome
  | [] => AddOutcome.fallthrough
  | t :: rest =>
    if t.name = ty.name ∧ t.revision = ty.revision then AddOutcome.dup
    else if t.name = ty.name ∧ t.revision < ty.revision then
      AddOutcome.done (ty :: t :: rest)
    else
      match rest with
      | [] => AddOutcome.fallthrough
      | t2 :: _ =>
        if t2.name = ty.name ∧ t2.revision = ty.revision then AddOutcome.dup
        else if t2.name = ty.name ∧ t2.revision < ty.revision then
          AddOutcome.done (t :: ty :: rest)
        else
          match type_add_loop ty rest with
          | AddOutcome.done l => AddOutcome.done (t :: l)
          | r => r

/-- `ipset_type_add(type)` on registry `l`: run the insertion loop; if
it falls off the end the new type becomes the new head of `typelist`.
(The `type_max_size` precomputation only fills the omitted `maxsize`
fields and is dropped.) -/
def ipset_type_add (ty : IpsetType) (l : List IpsetType) :
    ECode × List IpsetType :=
  match type_add_loop ty l with
  | AddOutcome.dup => (ECode.eexist, l)
  | AddOutcome.done l2 => (ECode.ok, l2)
  | AddOutcome.fallthrough => (ECode.ok, ty :: l)

/-- Result of `create_type_get`.  `ipset_errptr` returns are split by
which diagnostic fires: `unknownType` for "unknown settype",
`upgradeLibrary` / `upgradeKernel` for the two `VersionMismatch`
messages; `transportError` models `ipset_cmd` failing; `ok` carries
the registry after the call, the matched descriptor as recorded into
the session data, and the resolved family. -/
inductive CreateResult where
  | unknownType
  | transportError
  | upgradeLibrary
  | upgradeKernel
  | ok (typelist : List IpsetType) (t : IpsetType) (fam : Family)
  deriving DecidableEq, Repr

/-- The registry scan of `create_type_get`: walk `typelist` skipping
`IPSET_KERNEL_MISMATCH` entries; the first name/family match becomes
`match` and sets `tmax` to its revision; every later match with the
same family as `match` overwrites `tmin` with its revision.  The
accumulator mirrors the C locals (`match` with its position, the
running index, `tmax`, `tmin`; both bounds start at 0). -/
def create_loop (tn : String) (fam : Family) :
    List IpsetType → Option (Nat × IpsetType) → Nat → Nat → Nat →
    Option (Nat × IpsetType) × Nat × Nat
  | [], m, _, tmax, tmin => (m, tmax, tmin)
  | t :: rest, m, i, tmax, tmin =>
    if t.kernel_check = KernelCheck.mismatch then
      create_loop tn fam rest m (i + 1) tmax tmin
    else if ipset_match_typename tn t && match_family t fam then
      match m with
      | none => create_loop tn fam rest (some (i, t)) (i + 1) t.revision tmin
      | some (j, mt) =>
        if t.family = mt.family then
          create_loop tn fam rest (some (j, mt)) (i + 1) tmax t.revision
        else
          create_loop tn fam rest (some (j, mt)) (i + 1) tmax tmin
    else
      create_loop tn fam rest m (i + 1) tmax tmin

/-- Set `kernel_check := IPSET_KERNEL_OK` on the node at position `i`
(`match->kernel_check = IPSET_KERNEL_OK`). -/
def mark_ok : List IpsetType → Nat → List IpsetType
  | [], _ => []
  | t :: rest, 0 => { t with kernel_check := KernelCheck.ok } :: rest
  | t :: rest, n + 1 => t :: mark_ok rest n

/-- `create_type_get`: scan the registry; no match is a syntax error;
otherwise resolve an unspecified family from the match (AF_INET46
collapsing to AF_INET), short-circuit when the match is already
known kernel-compatible, and otherwise ask the kernel for its
supported revision range.  `kernel = none` models `ipset_cmd`
failing; `some (kmax, kminO)` models the reply, `kminO = none`
meaning the IPSET_OPT_REVISION_MIN attribute was absent (then
`kmin = kmax`).  Success requires
`MAX(tmin, kmin) <= MIN(tmax, kmax)`; on failure the direction of the
mismatch picks the diagnostic; on success the match is marked
kernel-compatible and recorded. -/
def create_type_get (typel : List IpsetType) (tn : String) (fam : Family)
    (kernel : Option (Nat × Option Nat)) : CreateResult :=
  match create_loop tn fam typel none 0 0 0 with
  | (none, _, _) => CreateResult.unknownType
  | (some (i, m), tmax, tmin) =>
    let fam2 := if fam = Family.unspec ∧ m.family ≠ Family.unspec then
        (if m.family = Family.inet46 then Family.inet else m.family)
      else fam
    if m.kernel_check = KernelCheck.ok then CreateResult.ok typel m fam2
    else
      match kernel with
      | none => CreateResult.transportError
      | some (kmax, kminO) =>
        let kmin := kminO.getD kmax
        if max tmin kmin > min tmax kmax then
          if kmin > tmax then CreateResult.upgradeLibrary
          else CreateResult.upgradeKernel
        else
          CreateResult.ok (mark_ok typel i)
            { m with kernel_check := KernelCheck.ok } fam2

/-- Result of `adt_type_get`: transport failure of the CMD_HEADER
query, the kernel-library incompatibility error, or success carrying
the registry after the call and the recorded descriptor. -/
inductive AdtResult where
  | transportError
  | incompat
  | ok (typelist : List IpsetType) (t : IpsetType)
  deriving DecidableEq, Repr

/-- Cache scan of `adt_type_get`: first entry whose name equals the
setname. -/
def cache_lookup : List CachedSet → String → Option CachedSet
  | [], _ => none
  | e :: rest, nm => if e.name = nm then some e else cache_lookup rest nm

/-- Registry scan of `adt_type_get`: first non-MISMATCH descriptor
whose CANONICAL name equals the kernel-reported typename (the source
uses `STREQ(typename, t->name)`, not `ipset_match_typename`), whose
family matches and whose revision equals the reported revision
exactly; returns its position and the descriptor. -/
def adt_find (tn : String) (fam : Family) (rev : Nat) :
    List IpsetType → Option (Nat × IpsetType)
  | [] => none
  | t :: rest =>
    if t.kernel_check ≠ KernelCheck.mismatch ∧ t.name = tn ∧
        match_family t fam = true ∧ t.revision = rev then
      some (0, t)
    else (adt_find tn fam rev rest).map (fun p => (p.1 + 1, p.2))

/-- `adt_type_get`: a cache hit short-circuits with the cached type
and no kernel query; otherwise the kernel is asked for the set header
(`kernel = none` models `ipset_cmd` failing, otherwise the reported
typename/family/revision) and the registry is scanned for an exact
match, which is marked kernel-compatible and recorded. -/
def adt_type_get (setl : List CachedSet) (typel : List IpsetType)
    (setname : String) (kernel : Option (String × Family × Nat)) :
    AdtResult :=
  match cache_lookup setl setname with
  | some s => AdtResult.ok typel s.type
  | none =>
    match kernel with
    | none => AdtResult.transportError
    | some (tn, fam, rev) =>
      match adt_find tn fam rev typel with
      | some (i, t) =>
        AdtResult.ok (mark_ok typel i)
          { t with kernel_check := KernelCheck.ok }
      | none => AdtResult.incompat

/-- Revision-5 descriptor of type "T" with family AF_INET, kernel
compatibility not yet checked. -/
def T5def : IpsetType := ⟨"T", [], Family.inet, 5, KernelCheck.unchecked⟩

/-- Revision-3 descriptor of type "T" with family AF_INET. -/
def T3def : IpsetType := ⟨"T", [], Family.inet, 3, KernelCheck.unchecked⟩

/-- Registry holding revisions 5 and 3 of type "T", in the strictly
descending order the registry is documented to maintain. -/
def regT : List IpsetType := [T5def, T3def]

/-- Descriptor whose canonical name is "hash:ip" with alias
"iphash". -/
def Dalias : IpsetType := ⟨"hash:ip", ["iphash"], Family.inet, 0, KernelCheck.unchecked⟩

/-- Revision-`r` descriptor of type "A" with family AF_INET, used for
exercising `ipset_type_add`. -/
def Arev (r : Nat) : IpsetType := ⟨"A", [], Family.inet, r, KernelCheck.unchecked⟩

/-- One cache mutation, as issued by a caller of the cache API. -/
inductive CacheOp where
  | add (nm : String) (t : IpsetType) (f : Family)
  | del (nm : Option String)
  | ren (a b : String)
  | swp (a b : String)

/-- Apply one cache mutation; the resulting cache is the global
`setlist` after the call (unchanged when the call failed). -/
def applyOp (op : CacheOp) (l : List CachedSet) : List CachedSet :=
  match op with
  | CacheOp.add nm t f => (ipset_cache_add nm t f l).2
  | CacheOp.del nm => (ipset_cache_del nm l).2
  | CacheOp.ren a b => (ipset_cache_rename a b l).2
  | CacheOp.swp a b => (ipset_cache_swap a b l).2

/-- Run a sequence of cache mutations starting from the empty
cache. -/
def runOps (ops : List CacheOp) : List CachedSet :=
  ops.foldl (fun l op => applyOp op l) []

/-- Cache states reachable from the empty cache when every add uses a
name not currently in the cache and every rename targets a name not
currently in the cache (deletes and swaps are unrestricted). -/
inductive GoodReach : List CachedSet → Prop where
  | nil : GoodReach []
  | add (l : List CachedSet) (nm : String) (t : IpsetType) (f : Family) :
      GoodReach l → (∀ e ∈ l, e.name ≠ nm) →
      GoodReach (applyOp (CacheOp.add nm t f) l)
  | del (l : List CachedSet) (nm : Option String) :
      GoodReach l → GoodReach (applyOp (CacheOp.del nm) l)
  | ren (l : List CachedSet) (a b : String) :
      GoodReach l → (∀ e ∈ l, e.name ≠ b) →
      GoodReach (applyOp (CacheOp.ren a b) l)
  | swp (l : List CachedSet) (a b : String) :
      GoodReach l → GoodReach (applyOp (CacheOp.swp a b) l)

/-! ## Lemmas about the `create_type_get` registry scan -/

/-- Invariant of the scan: whenever a match has been found, `tmax`
holds that match's revision (it is written exactly once, when the
match is first recorded). -/
theorem create_loop_tmax (tn : String) (fam : Family) (l : List IpsetType) :
    ∀ (m : Option (Nat × IpsetType)) (i tmax tmin j : Nat) (mm : IpsetType)
      (tmax2 tmin2 : Nat),
      (∀ p : Nat × IpsetType, m = some p → tmax = p.2.revision) →
      create_loop tn fam l m i tmax tmin = (some (j, mm), tmax2, tmin2) →
      tmax2 = mm.revision := by
  induction l with
  | nil =>
    intro m i tmax tmin j mm tmax2 tmin2 hinv heq
    simp only [create_loop, Prod.mk.injEq] at heq
    obtain ⟨h1, h2, h3⟩ := heq
    rw [← h2]
    exact hinv (j, mm) h1
  | cons t rest ih =>
    intro m i tmax tmin j mm tmax2 tmin2 hinv heq
    cases m with
    | none =>
      simp only [create_loop] at heq
      by_cases h1 : t.kernel_check = KernelCheck.mismatch
      · rw [if_pos h1] at heq
        exact ih _ _ _ _ _ _ _ _ hinv heq
      · rw [if_neg h1] at heq
        by_cases h2 : (ipset_match_typename tn t && match_family t fam) = true
        · rw [if_pos h2] at heq
          refine ih _ _ _ _ _ _ _ _ ?_ heq
          intro p hp
          injection hp with hp2
          rw [← hp2]
        · rw [if_neg h2] at heq
          exact ih _ _ _ _ _ _ _ _ hinv heq
    | some jm =>
      obtain ⟨j0, mt⟩ := jm
      simp only [create_loop] at heq
      by_cases h1 : t.kernel_check = KernelCheck.mismatch
      · rw [if_pos h1] at heq
        exact ih _ _ _ _ _ _ _ _ hinv heq
      · rw [if_neg h1] at heq
        by_cases h2 : (ipset_match_typename tn t && match_family t fam) = true
        · rw [if_pos h2] at heq
          by_cases h3 : t.family = mt.family
          · rw [if_pos h3] at heq
            exact ih _ _ _ _ _ _ _ _ hinv heq
          · rw [if_neg h3] at heq
            exact ih _ _ _ _ _ _ _ _ hinv heq
        · rw [if_neg h2] at heq
          exact ih _ _ _ _ _ _ _ _ hinv heq

/-- When no registered descriptor matches the queried name and
family, the scan never records a match (whatever the kernel-check
states of the entries are). -/
theorem create_loop_no_match (tn : String) (fam : Family) (l : List IpsetType) :
    (∀ t ∈ l, ¬(ipset_match_typename tn t = true ∧ match_family t fam = true)) →
    ∀ i tmax tmin, create_loop tn fam l none i tmax tmin = (none, tmax, tmin) := by
  induction l with
  | nil => intro _ i tmax tmin; rfl
  | cons t rest ih =>
    intro h i tmax tmin
    have hrest : ∀ t2 ∈ rest,
        ¬(ipset_match_typename tn t2 = true ∧ match_family t2 fam = true) :=
      fun t2 h2 => h t2 (List.mem_cons_of_mem _ h2)
    have ht := h t (List.mem_cons_self t rest)
    have h2 : (ipset_match_typename tn t && match_family t fam) = false := by
      cases hm : ipset_match_typename tn t <;>
        cases hf : match_family t fam <;> simp_all
    simp only [create_loop]
    by_cases h1 : t.kernel_check = KernelCheck.mismatch
    · rw [if_pos h1]
      exact ih hrest (i + 1) tmax tmin
    · rw [if_neg h1, h2]
      simp only [Bool.false_eq_true, if_false]
      exact ih hrest (i + 1) tmax tmin

/-- C1: `negotiateForCreate` against the registry holding revisions
[3,5] of type "T" (family AF_INET): a kernel range [6,8] fails with
the "upgrade your ipset library" diagnostic, [1,2] fails with the
"upgrade your kernel" diagnostic, and [4,6] succeeds and marks the
top revision of "T" kernel-compatible.  In general, for any registry
scan that found a not-yet-validated match, the negotiation succeeds
iff `max(tmin, kmin) <= min(match.revision, kmax)`. -/
theorem create_negotiation_ranges :
    create_type_get regT "T" Family.inet (some (8, some 6)) =
      CreateResult.upgradeLibrary ∧
    create_type_get regT "T" Family.inet (some (2, some 1)) =
      CreateResult.upgradeKernel ∧
    create_type_get regT "T" Family.inet (some (6, some 4)) =
      CreateResult.ok [{ T5def with kernel_check := KernelCheck.ok }, T3def]
        { T5def with kernel_check := KernelCheck.ok } Family.inet ∧
    ∀ (typel : List IpsetType) (tn : String) (fam : Family)
      (kmax : Nat) (kminO : Option Nat) (i : Nat) (m : IpsetType)
      (tmax tmin : Nat),
      create_loop tn fam typel none 0 0 0 = (some (i, m), tmax, tmin) →
      m.kernel_check ≠ KernelCheck.ok →
      ((∃ tl t f, create_type_get typel tn fam (some (kmax, kminO)) =
          CreateResult.ok tl t f) ↔
        max tmin (kminO.getD kmax) ≤ min m.revision kmax) := by
  refine ⟨by decide, by decide, by decide, ?_⟩
  intro typel tn fam kmax kminO i m tmax tmin hloop hok
  have htmax : tmax = m.revision :=
    create_loop_tmax tn fam typel none 0 0 0 i m tmax tmin
      (fun p hp => nomatch hp) hloop
  rw [← htmax]
  simp only [create_type_get, hloop]
  rw [if_neg hok]
  constructor
  · rintro ⟨tl, t, f, h⟩
    by_cases hc : max tmin (kminO.getD kmax) > min tmax kmax
    · rw [if_pos hc] at h
      by_cases hd : kminO.getD kmax > tmax
      · rw [if_pos hd] at h; cases h
      · rw [if_neg hd] at h; cases h
    · omega
  · intro hle
    have hc : ¬(max tmin (kminO.getD kmax) > min tmax kmax) := by omega
    rw [if_neg hc]
    exact ⟨_, _, _, rfl⟩

/-- Closed instance of the general clause of `create_negotiation_ranges`:
the [4,6] kernel range overlaps the userspace range [3,5]. -/
theorem create_negotiation_ranges_witness :
    (∃ tl t f, create_type_get regT "T" Family.inet (some (6, some 4)) =
      CreateResult.ok tl t f) ↔
    max 3 ((some 4 : Option Nat).getD 6) ≤ min T5def.revision 6 :=
  create_negotiation_ranges.2.2.2 regT "T" Family.inet 6 (some 4) 0 T5def 5 3
    (by decide) (by decide)

/-- C9: when the kernel reply carries no IPSET_OPT_REVISION_MIN
attribute, `kmin` is taken to be `kmax`, and the overlap test
degenerates to `tmin <= k` and `k <= tmax`: the single kernel
revision must lie within the userspace range. -/
theorem create_kmin_defaults_to_kmax (typel : List IpsetType) (tn : String)
    (fam : Family) (k i : Nat) (m : IpsetType) (tmax tmin : Nat)
    (hloop : create_loop tn fam typel none 0 0 0 = (some (i, m), tmax, tmin))
    (hok : m.kernel_check ≠ KernelCheck.ok) :
    ((∃ tl t f, create_type_get typel tn fam (some (k, none)) =
        CreateResult.ok tl t f) ↔
      (tmin ≤ k ∧ k ≤ tmax)) := by
  have htmax : tmax = m.revision :=
    create_loop_tmax tn fam typel none 0 0 0 i m tmax tmin
      (fun p hp => nomatch hp) hloop
  have hgen := create_negotiation_ranges.2.2.2 typel tn fam k none i m tmax tmin
    hloop hok
  rw [hgen]
  simp only [Option.getD_none]
  omega

/-- Closed instance of `create_kmin_defaults_to_kmax`: a kernel that
reports only revision 4 for type "T" succeeds against the userspace
range [3,5] because 3 <= 4 <= 5. -/
theorem create_kmin_defaults_to_kmax_witness :
    (∃ tl t f, create_type_get regT "T" Family.inet (some (4, none)) =
      CreateResult.ok tl t f) ↔ (3 ≤ 4 ∧ 4 ≤ 5) :=
  create_kmin_defaults_to_kmax regT "T" Family.inet 4 0 T5def 5 3
    (by decide) (by decide)

/-- C6: when no registered descriptor matches the queried typename
(canonical name or alias) with a compatible family,
`negotiateForCreate` fails with the unknown-settype error for EVERY
behaviour of the kernel transport - in particular the result does not
depend on the kernel reply, so no kernel query is observable. -/
theorem create_unknown_type_no_query (typel : List IpsetType) (tn : String)
    (fam : Family)
    (h : ∀ t ∈ typel,
      ¬(ipset_match_typename tn t = true ∧ match_family t fam = true)) :
    ∀ kernel, create_type_get typel tn fam kernel = CreateResult.unknownType := by
  intro kernel
  simp only [create_type_get, create_loop_no_match tn fam typel h 0 0 0]

/-- Closed instance of `create_unknown_type_no_query`: querying the
unregistered typename "X" against the [T5,T3] registry fails with
the unknown-settype error even when the transport would fail. -/
theorem create_unknown_type_no_query_witness :
    create_type_get regT "X" Family.inet none = CreateResult.unknownType :=
  create_unknown_type_no_query regT "X" Family.inet (by decide) none

/-! ## The registry insertion order (C2, C5) -/

/-- C2: the registry does NOT keep same-named descriptors in strictly
descending revision order.  Registering type "A" with revisions 3,
then 5, then 1 (all distinct) yields the reachable registry order
[1, 5, 3]: inserting a revision lower than every existing same-named
revision falls off the end of the loop and is pushed to the head of
the whole list, contradicting the function's own documentation
("The types are added sorted, in descending revision number"). -/
theorem type_add_descending_violated :
    (ipset_type_add (Arev 3) []).2 = [Arev 3] ∧
    (ipset_type_add (Arev 5) [Arev 3]).2 = [Arev 5, Arev 3] ∧
    ipset_type_add (Arev 1) [Arev 5, Arev 3] =
      (ECode.ok, [Arev 1, Arev 5, Arev 3]) ∧
    ([Arev 1, Arev 5, Arev 3].map (fun t => t.revision) = [1, 5, 3]) ∧
    ¬ List.Pairwise (fun a b => a > b) ([1, 5, 3] : List Nat) := by
  decide

/-- C5 counterexample: on the reachable (but mis-ordered) registry
[A1, A5, A3], registering a SECOND descriptor with name "A" and
revision 5 succeeds - the loop splices it in before A1 without ever
reaching the existing duplicate - leaving two descriptors with
identical (name, revision). -/
theorem type_add_duplicate_accepted :
    ipset_type_add (Arev 5) [Arev 1, Arev 5, Arev 3] =
      (ECode.ok, [Arev 5, Arev 1, Arev 5, Arev 3]) ∧
    ((ipset_type_add (Arev 5) [Arev 1, Arev 5, Arev 3]).2.filter
      (fun t => t.name == "A" && t.revision == 5)).length = 2 ∧
    (ipset_type_add (Arev 1)
      (ipset_type_add (Arev 5) (ipset_type_add (Arev 3) []).2).2).2 =
      [Arev 1, Arev 5, Arev 3] := by
  decide

/-- On a registry whose same-named descriptors appear in strictly
descending revision order, the insertion loop reports a duplicate
whenever a descriptor with the new type's name and revision is
present: every same-named node encountered before the duplicate has a
strictly larger revision, so neither splice branch can fire first. -/
theorem type_add_loop_dup (ty : IpsetType) (l : List IpsetType) :
    List.Pairwise
      (fun a b => a.name = ty.name → b.name = ty.name →
        a.revision > b.revision) l →
    (∃ d ∈ l, d.name = ty.name ∧ d.revision = ty.revision) →
    type_add_loop ty l = AddOutcome.dup := by
  induction l with
  | nil =>
    rintro _ ⟨d, hd, _⟩
    exact absurd hd (List.not_mem_nil d)
  | cons t rest ih =>
    rintro hp ⟨d, hdmem, hdname, hdrev⟩
    have hhead := (List.pairwise_cons.mp hp).1
    have htail := (List.pairwise_cons.mp hp).2
    cases rest with
    | nil =>
      rcases List.mem_cons.mp hdmem with rfl | hr
      · simp only [type_add_loop]
        rw [if_pos ⟨hdname, hdrev⟩]
      · exact absurd hr (List.not_mem_nil d)
    | cons t2 rest2 =>
      simp only [type_add_loop]
      by_cases h1 : t.name = ty.name ∧ t.revision = ty.revision
      · rw [if_pos h1]
      · rw [if_neg h1]
        have hdrest : d ∈ t2 :: rest2 := by
          rcases List.mem_cons.mp hdmem with rfl | hr
          · exact absurd ⟨hdname, hdrev⟩ h1
          · exact hr
        by_cases h2 : t.name = ty.name ∧ t.revision < ty.revision
        · exfalso
          have := hhead d hdrest h2.1 hdname
          omega
        · rw [if_neg h2]
          have hhead2 := (List.pairwise_cons.mp htail).1
          by_cases h3 : t2.name = ty.name ∧ t2.revision = ty.revision
          · rw [if_pos h3]
          · rw [if_neg h3]
            have hdrest2 : d ∈ rest2 := by
              rcases List.mem_cons.mp hdrest with rfl | hr
              · exact absurd ⟨hdname, hdrev⟩ h3
              · exact hr
            by_cases h4 : t2.name = ty.name ∧ t2.revision < ty.revision
            · exfalso
              have := hhead2 d hdrest2 h4.1 hdname
              omega
            · rw [if_neg h4]
              show (match type_add_loop ty (t2 :: rest2) with
                | AddOutcome.done l => AddOutcome.done (t :: l)
                | r => r) = AddOutcome.dup
              rw [ih htail ⟨d, hdrest, hdname, hdrev⟩]

/-- C5 amended: on every registry whose same-named descriptors occur
in strictly descending revision order (the documented invariant),
registering a descriptor whose name and revision both equal those of
a registered descriptor fails with EEXIST and returns the registry
unchanged. -/
theorem type_add_duplicate_rejected (ty : IpsetType) (l : List IpsetType)
    (hsorted : List.Pairwise
      (fun a b => a.name = ty.name → b.name = ty.name →
        a.revision > b.revision) l)
    (hdup : ∃ d ∈ l, d.name = ty.name ∧ d.revision = ty.revision) :
    ipset_type_add ty l = (ECode.eexist, l) := by
  simp only [ipset_type_add, type_add_loop_dup ty l hsorted hdup]

/-- Closed instance of `type_add_duplicate_rejected` on the
well-ordered registry [A5, A3]. -/
theorem type_add_duplicate_rejected_witness :
    ipset_type_add (Arev 5) [Arev 5, Arev 3] =
      (ECode.eexist, [Arev 5, Arev 3]) :=
  type_add_duplicate_rejected (Arev 5) [Arev 5, Arev 3] (by decide)
    ⟨Arev 5, by decide, rfl, rfl⟩

/-! ## The cache duplicate check (C3) -/

/-- C3: `ipset_cache_add` does NOT reject a name already present when
that name is held by the LAST cache entry: the duplicate scan
`for (s = setlist; s->next != NULL; ...)` never examines the tail
node.  Adding "s1" twice to an empty cache succeeds both times and
leaves TWO entries, contradicting the function's own documentation
("The set name must be unique") and the claimed AlreadyExists
failure. -/
theorem cache_add_duplicate_accepted :
    ipset_cache_add "s1" T5def Family.inet [] =
      (ECode.ok, [⟨"s1", T5def, Family.inet⟩]) ∧
    ipset_cache_add "s1" T5def Family.inet [⟨"s1", T5def, Family.inet⟩] =
      (ECode.ok, [⟨"s1", T5def, Family.inet⟩, ⟨"s1", T5def, Family.inet⟩]) ∧
    (ipset_cache_add "s1" T5def Family.inet
      [⟨"s1", T5def, Family.inet⟩]).2.length = 2 := by
  decide

/-! ## The entry-command negotiation (C4) -/

/-- An element looked up positionally is a member of the list. -/
theorem mem_of_idx {α : Type} (l : List α) :
    ∀ i a, idx l i = some a → a ∈ l := by
  induction l with
  | nil => intro i a h; cases h
  | cons hd rest ih =>
    intro i a h
    cases i with
    | zero =>
      injection h with h2
      rw [← h2]
      exact List.mem_cons_self hd rest
    | succ n => exact List.mem_cons_of_mem _ (ih n a h)

/-- `mark_ok` rewrites exactly the targeted position with the
kernel-compatible copy of its descriptor. -/
theorem idx_mark_ok (l : List IpsetType) :
    ∀ i t, idx l i = some t →
      idx (mark_ok l i) i = some { t with kernel_check := KernelCheck.ok } := by
  induction l with
  | nil => intro i t h; cases h
  | cons hd rest ih =>
    intro i t h
    cases i with
    | zero =>
      injection h with h2
      rw [← h2]
      rfl
    | succ n => exact ih n t h

/-- The `adt_type_get` registry scan comes up empty exactly when no
non-MISMATCH descriptor matches the kernel-reported canonical name,
family and exact revision. -/
theorem adt_find_none_iff (tn : String) (fam : Family) (rev : Nat)
    (l : List IpsetType) :
    adt_find tn fam rev l = none ↔
      ∀ t ∈ l, ¬(t.kernel_check ≠ KernelCheck.mismatch ∧ t.name = tn ∧
        match_family t fam = true ∧ t.revision = rev) := by
  induction l with
  | nil => simp [adt_find]
  | cons t rest ih =>
    simp only [adt_find]
    by_cases h : t.kernel_check ≠ KernelCheck.mismatch ∧ t.name = tn ∧
        match_family t fam = true ∧ t.revision = rev
    · rw [if_pos h]
      simp [h]
    · rw [if_neg h]
      simp only [Option.map_eq_none', List.forall_mem_cons, ih]
      exact ⟨fun hr => ⟨h, hr⟩, fun hc => hc.2⟩

/-- What a successful `adt_type_get` registry scan returns: the
position holds the returned descriptor and it satisfies the exact
matching condition. -/
theorem adt_find_some (tn : String) (fam : Family) (rev : Nat)
    (l : List IpsetType) :
    ∀ i t, adt_find tn fam rev l = some (i, t) →
      idx l i = some t ∧ t.kernel_check ≠ KernelCheck.mismatch ∧ t.name = tn ∧
        match_family t fam = true ∧ t.revision = rev := by
  induction l with
  | nil => intro i t h; cases h
  | cons hd rest ih =>
    intro i t h
    simp only [adt_find] at h
    by_cases hc : hd.kernel_check ≠ KernelCheck.mismatch ∧ hd.name = tn ∧
        match_family hd fam = true ∧ hd.revision = rev
    · rw [if_pos hc] at h
      injection h with h2
      rw [Prod.mk.injEq] at h2
      obtain ⟨hi, ht⟩ := h2
      rw [← hi, ← ht]
      exact ⟨rfl, hc⟩
    · rw [if_neg hc] at h
      cases hfind : adt_find tn fam rev rest with
      | none => rw [hfind] at h; cases h
      | some p =>
        obtain ⟨i0, t0⟩ := p
        rw [hfind] at h
        simp only [Option.map_some'] at h
        injection h with h2
        rw [Prod.mk.injEq] at h2
        obtain ⟨hi, ht⟩ := h2
        obtain ⟨hidx, hrest⟩ := ih i0 t0 hfind
        rw [← hi, ← ht]
        exact ⟨hidx, hrest⟩

/-- C4 counterexample: the kernel reports typename "iphash", which is
an ALIAS of the registered descriptor ("hash:ip", aliases
["iphash"]) with compatible family and the exact reported revision,
yet `adt_type_get` fails with the kernel-library incompatibility
error: its registry scan compares the reported typename with
`STREQ(typename, t->name)` only and never consults aliases. -/
theorem adt_alias_not_consulted :
    adt_type_get [] [Dalias] "s1" (some ("iphash", Family.inet, 0)) =
      AdtResult.incompat ∧
    ipset_match_typename "iphash" Dalias = true ∧
    match_family Dalias Family.inet = true ∧
    Dalias.revision = 0 ∧
    Dalias.kernel_check ≠ KernelCheck.mismatch := by
  decide

/-- C4 amended: after a cache miss and a kernel header reply, a
descriptor is matched iff its CANONICAL name (aliases are not
consulted) equals the reported typename, its family is compatible,
its revision equals the reported revision exactly, and it is not
marked kernel-incompatible; with no such descriptor the operation
fails with the kernel-library incompatibility error, and on success
the returned match is marked CompatibleWithKernel and recorded in the
returned registry. -/
theorem adt_exact_name_match (setl : List CachedSet) (typel : List IpsetType)
    (setname tn : String) (fam : Family) (rev : Nat)
    (hmiss : cache_lookup setl setname = none) :
    (adt_type_get setl typel setname (some (tn, fam, rev)) =
        AdtResult.incompat ↔
      ∀ t ∈ typel, ¬(t.kernel_check ≠ KernelCheck.mismatch ∧ t.name = tn ∧
        match_family t fam = true ∧ t.revision = rev)) ∧
    (∀ tl m, adt_type_get setl typel setname (some (tn, fam, rev)) =
        AdtResult.ok tl m →
      m.name = tn ∧ match_family m fam = true ∧ m.revision = rev ∧
        m.kernel_check = KernelCheck.ok ∧ m ∈ tl) := by
  simp only [adt_type_get, hmiss]
  cases hfind : adt_find tn fam rev typel with
  | none =>
    simp only [hfind]
    constructor
    · simp only [true_iff, iff_true]
      exact (adt_find_none_iff tn fam rev typel).mp hfind
    · intro tl m h
      cases h
  | some p =>
    obtain ⟨i, t⟩ := p
    obtain ⟨hidx, hkc, hname, hfam, hrev⟩ := adt_find_some tn fam rev typel i t hfind
    simp only [hfind]
    constructor
    · constructor
      · intro h; cases h
      · intro hall
        exact absurd ⟨hkc, hname, hfam, hrev⟩
          (hall t (mem_of_idx typel i t hidx))
    · intro tl m h
      injection h with h1 h2
      rw [← h1, ← h2]
      exact ⟨hname, hfam, hrev, rfl,
        mem_of_idx _ i _ (idx_mark_ok typel i t hidx)⟩

/-- Closed instance of `adt_exact_name_match`: against the registry
[T5, T3], the kernel reporting ("T", AF_INET, revision 4) matches no
descriptor (wrong revision), so the call fails with the
incompatibility error. -/
theorem adt_exact_name_match_witness :
    adt_type_get [] regT "s" (some ("T", Family.inet, 4)) =
        AdtResult.incompat ↔
      ∀ t ∈ regT, ¬(t.kernel_check ≠ KernelCheck.mismatch ∧ t.name = "T" ∧
        match_family t Family.inet = true ∧ t.revision = 4) :=
  (adt_exact_name_match [] regT "s" "T" Family.inet 4 rfl).1

/-! ## Positional lemmas about the cache scans and updates -/

/-- Positional lookup commutes with `map`. -/
theorem idx_map {α β : Type} (f : α → β) (l : List α) :
    ∀ n, idx (l.map f) n = (idx l n).map f := by
  induction l with
  | nil => intro n; cases n <;> rfl
  | cons a rest ih =>
    intro n
    cases n with
    | zero => rfl
    | succ n2 => exact ih n2

/-- In a list without duplicates, positions are determined by
values. -/
theorem nodup_idx_inj {α : Type} (l : List α) (h : l.Nodup) :
    ∀ i j a, idx l i = some a → idx l j = some a → i = j := by
  induction l with
  | nil => intro i j a hi _; cases hi
  | cons x rest ih =>
    rw [List.nodup_cons] at h
    intro i j a hi hj
    cases i with
    | zero =>
      cases j with
      | zero => rfl
      | succ n =>
        injection hi with hx
        exact absurd (by rw [hx]; exact mem_of_idx rest n a hj) h.1
    | succ m =>
      cases j with
      | zero =>
        injection hj with hx
        exact absurd (by rw [hx]; exact mem_of_idx rest m a hi) h.1
      | succ n => exact congrArg Nat.succ (ih h.2 m n a hi hj)

/-- `setName` rewrites exactly the targeted position. -/
theorem idx_setName (l : List CachedSet) :
    ∀ i nm k, idx (setName l i nm) k =
      if k = i then (idx l k).map (fun e => { e with name := nm })
      else idx l k := by
  induction l with
  | nil =>
    intro i nm k
    have hnone : idx ([] : List CachedSet) k = none := by cases k <;> rfl
    show idx ([] : List CachedSet) k = _
    rw [hnone]
    by_cases h : k = i
    · rw [if_pos h]; rfl
    · rw [if_neg h]
  | cons e rest ih =>
    intro i nm k
    cases i with
    | zero =>
      cases k with
      | zero => rfl
      | succ n =>
        show idx rest n = if n + 1 = 0 then _ else idx rest n
        rw [if_neg (Nat.succ_ne_zero n)]
    | succ m =>
      cases k with
      | zero =>
        show some e = if 0 = m + 1 then _ else some e
        rw [if_neg (Nat.succ_ne_zero m).symm]
      | succ n =>
        show idx (setName rest m nm) n =
          if n + 1 = m + 1 then (idx rest n).map _ else idx rest n
        rw [ih m nm n]
        by_cases h : n = m
        · rw [if_pos h, if_pos (by omega)]
        · rw [if_neg h, if_neg (by omega)]

/-- Writing the same position twice keeps only the second write. -/
theorem setName_collapse (l : List CachedSet) :
    ∀ i x y, setName (setName l i x) i y = setName l i y := by
  induction l with
  | nil => intro i x y; rfl
  | cons e rest ih =>
    intro i x y
    cases i with
    | zero => rfl
    | succ n =>
      show e :: setName (setName rest n x) n y = e :: setName rest n y
      rw [ih n x y]

/-- Writes to distinct positions commute. -/
theorem setName_comm (l : List CachedSet) :
    ∀ i j x y, i ≠ j →
      setName (setName l i x) j y = setName (setName l j y) i x := by
  induction l with
  | nil => intro i j x y _; rfl
  | cons e rest ih =>
    intro i j x y h
    cases i with
    | zero =>
      cases j with
      | zero => exact absurd rfl h
      | succ n => rfl
    | succ m =>
      cases j with
      | zero => rfl
      | succ n =>
        show e :: setName (setName rest m x) n y =
          e :: setName (setName rest n y) m x
        rw [ih m n x y (by omega)]

/-- Writing back the name an entry already has is a no-op. -/
theorem setName_self (l : List CachedSet) :
    ∀ i e nm, idx l i = some e → e.name = nm → setName l i nm = l := by
  induction l with
  | nil => intro i e nm h _; cases h
  | cons hd rest ih =>
    intro i e nm h hnm
    cases i with
    | zero =>
      injection h with h2
      rw [← h2] at hnm
      show { hd with name := nm } :: rest = hd :: rest
      rw [← hnm]
    | succ n =>
      show hd :: setName rest n nm = hd :: rest
      rw [ih n e nm h hnm]

/-- The names of a `setName` result are the original names with the
targeted position overwritten. -/
theorem map_setName (l : List CachedSet) :
    ∀ i nm, (setName l i nm).map (fun e => e.name) =
      (l.map (fun e => e.name)).set i nm := by
  induction l with
  | nil => intro i nm; rfl
  | cons e rest ih =>
    intro i nm
    cases i with
    | zero => rfl
    | succ n =>
      show e.name :: (setName rest n nm).map _ = e.name :: (rest.map _).set n nm
      rw [ih n nm]

/-- `setName` never touches the type or the family of any entry. -/
theorem map_tf_setName (l : List CachedSet) :
    ∀ i nm, (setName l i nm).map (fun e => (e.type, e.family)) =
      l.map (fun e => (e.type, e.family)) := by
  induction l with
  | nil => intro i nm; rfl
  | cons e rest ih =>
    intro i nm
    cases i with
    | zero => rfl
    | succ n =>
      show (e.type, e.family) :: (setName rest n nm).map _ =
        (e.type, e.family) :: rest.map _
      rw [ih n nm]

/-- What a successful name scan returns: the position holds an entry
with the searched name. -/
theorem findName_idx (l : List CachedSet) :
    ∀ nm i, findName l nm = some i →
      ∃ e, idx l i = some e ∧ e.name = nm := by
  induction l with
  | nil => intro nm i h; cases h
  | cons hd rest ih =>
    intro nm i h
    simp only [findName] at h
    by_cases hc : hd.name = nm
    · rw [if_pos hc] at h
      injection h with h2
      rw [← h2]
      exact ⟨hd, rfl, hc⟩
    · rw [if_neg hc] at h
      cases hf : findName rest nm with
      | none => rw [hf] at h; cases h
      | some i0 =>
        rw [hf] at h
        simp only [Option.map_some'] at h
        injection h with h2
        obtain ⟨e, he, hen⟩ := ih nm i0 hf
        rw [← h2]
        exact ⟨e, he, hen⟩

/-- The name scan returns the FIRST position bearing the name. -/
theorem findName_first (l : List CachedSet) :
    ∀ nm i, findName l nm = some i →
      ∀ k, k < i → ∀ e, idx l k = some e → e.name ≠ nm := by
  induction l with
  | nil => intro nm i h; cases h
  | cons hd rest ih =>
    intro nm i h k hk e he
    simp only [findName] at h
    by_cases hc : hd.name = nm
    · rw [if_pos hc] at h
      injection h with h2
      omega
    · rw [if_neg hc] at h
      cases hf : findName rest nm with
      | none => rw [hf] at h; cases h
      | some i0 =>
        rw [hf] at h
        simp only [Option.map_some'] at h
        injection h with h2
        cases k with
        | zero =>
          injection he with he2
          rw [← he2]
          exact hc
        | succ k2 => exact ih nm i0 hf k2 (by omega) e he

/-- Conversely, the first position bearing a name is what the name
scan returns. -/
theorem findName_of (l : List CachedSet) :
    ∀ nm i e, idx l i = some e → e.name = nm →
      (∀ k, k < i → ∀ e2, idx l k = some e2 → e2.name ≠ nm) →
      findName l nm = some i := by
  induction l with
  | nil => intro nm i e h; cases h
  | cons hd rest ih =>
    intro nm i e h hnm hmin
    simp only [findName]
    cases i with
    | zero =>
      injection h with h2
      rw [if_pos (by rw [h2]; exact hnm)]
    | succ n =>
      have hhd : hd.name ≠ nm := hmin 0 (Nat.succ_pos n) hd rfl
      rw [if_neg hhd,
        ih nm n e h hnm (fun k hk e2 he2 => hmin (k + 1) (by omega) e2 he2)]
      rfl

/-- A present name is found by the name scan. -/
theorem findName_exists (l : List CachedSet) :
    ∀ nm, (∃ e ∈ l, e.name = nm) → ∃ i, findName l nm = some i := by
  induction l with
  | nil =>
    rintro nm ⟨e, he, _⟩
    exact absurd he (List.not_mem_nil e)
  | cons hd rest ih =>
    rintro nm ⟨e, he, hnm⟩
    simp only [findName]
    by_cases hc : hd.name = nm
    · exact ⟨0, by rw [if_pos hc]⟩
    · rcases List.mem_cons.mp he with rfl | hr
      · exact absurd hnm hc
      · obtain ⟨i0, hi0⟩ := ih nm ⟨e, hr, hnm⟩
        exact ⟨i0 + 1, by rw [if_neg hc, hi0]; rfl⟩

/-! ## Permutation and duplicate-freedom lemmas -/

/-- Overwriting position `k` (which holds `b`) with `a` and carrying
`b` in front is a permutation of carrying `a` in front. -/
theorem perm_cons_set {α : Type} (xs : List α) :
    ∀ k a b, idx xs k = some b → (b :: xs.set k a).Perm (a :: xs) := by
  induction xs with
  | nil => intro k a b h; cases h
  | cons x rest ih =>
    intro k a b h
    cases k with
    | zero =>
      injection h with h2
      rw [← h2]
      exact List.Perm.swap a x rest
    | succ n =>
      show (b :: x :: rest.set n a).Perm (a :: x :: rest)
      have s1 : (b :: x :: rest.set n a).Perm (x :: b :: rest.set n a) :=
        List.Perm.swap x b (rest.set n a)
      have s2 : (x :: b :: rest.set n a).Perm (x :: a :: rest) :=
        List.Perm.cons x (ih n a b h)
      have s3 : (x :: a :: rest).Perm (a :: x :: rest) := List.Perm.swap a x rest
      exact (s1.trans s2).trans s3

/-- Exchanging the values at two positions is a permutation. -/
theorem perm_set_set {α : Type} (xs : List α) :
    ∀ i j a b, idx xs i = some a → idx xs j = some b →
      ((xs.set i b).set j a).Perm xs := by
  induction xs with
  | nil => intro i j a b hi _; cases hi
  | cons x rest ih =>
    intro i j a b hi hj
    cases i with
    | zero =>
      injection hi with hi2
      cases j with
      | zero =>
        show (a :: rest).Perm (x :: rest)
        rw [← hi2]
      | succ n =>
        show (b :: rest.set n a).Perm (x :: rest)
        rw [hi2]
        exact perm_cons_set rest n a b hj
    | succ m =>
      cases j with
      | zero =>
        injection hj with hj2
        show (a :: rest.set m b).Perm (x :: rest)
        rw [hj2]
        exact perm_cons_set rest m b a hi
      | succ n =>
        show (x :: (rest.set m b).set n a).Perm (x :: rest)
        exact List.Perm.cons x (ih m n a b hi hj)

/-- Overwriting any position with a value that does not occur in the
list preserves duplicate-freedom. -/
theorem nodup_set_fresh {α : Type} (xs : List α) :
    ∀ i v, xs.Nodup → v ∉ xs → (xs.set i v).Nodup := by
  induction xs with
  | nil => intro i v h _; exact h
  | cons x rest ih =>
    intro i v h hv
    rw [List.nodup_cons] at h
    cases i with
    | zero =>
      show (v :: rest).Nodup
      rw [List.nodup_cons]
      exact ⟨fun hmem => hv (List.mem_cons_of_mem _ hmem), h.2⟩
    | succ n =>
      show (x :: rest.set n v).Nodup
      rw [List.nodup_cons]
      refine ⟨?_, ih n v h.2 (fun hm => hv (List.mem_cons_of_mem _ hm))⟩
      intro hmem
      rcases List.mem_or_eq_of_mem_set hmem with hm | rfl
      · exact h.1 hm
      · exact hv (List.mem_cons_self _ _)

/-- Unlinking a node yields a sublist. -/
theorem eraseAt_sublist {α : Type} (l : List α) :
    ∀ i, (eraseAt l i).Sublist l := by
  induction l with
  | nil => intro i; exact List.Sublist.refl []
  | cons x rest ih =>
    intro i
    cases i with
    | zero => exact List.sublist_cons_self x rest
    | succ n => exact List.Sublist.cons₂ x (ih n)

/-- Unlinking commutes with `map`. -/
theorem map_eraseAt {α β : Type} (f : α → β) (l : List α) :
    ∀ i, (eraseAt l i).map f = eraseAt (l.map f) i := by
  induction l with
  | nil => intro i; rfl
  | cons x rest ih =>
    intro i
    cases i with
    | zero => rfl
    | succ n =>
      show f x :: (eraseAt rest n).map f = f x :: eraseAt (rest.map f) n
      rw [ih n]

/-- When the added name is fresh, `ipset_cache_add` appends the new
entry at the tail. -/
theorem cache_add_fresh (nm : String) (t : IpsetType) (f : Family)
    (l : List CachedSet) :
    (∀ e ∈ l, e.name ≠ nm) →
    (ipset_cache_add nm t f l).2 = l ++ [⟨nm, t, f⟩] := by
  have hloop : ∀ (l2 : List CachedSet), l2 ≠ [] → (∀ e ∈ l2, e.name ≠ nm) →
      cache_add_loop nm ⟨nm, t, f⟩ l2 = some (l2 ++ [⟨nm, t, f⟩]) := by
    intro l2
    induction l2 with
    | nil => intro h2 _; exact absurd rfl h2
    | cons x rest2 ih =>
      intro _ h2
      cases rest2 with
      | nil => rfl
      | cons y rest3 =>
        show (if x.name = nm then none
          else (cache_add_loop nm ⟨nm, t, f⟩ (y :: rest3)).map (x :: ·)) = _
        rw [if_neg (h2 x (List.mem_cons_self _ _)),
          ih (by simp) (fun e he => h2 e (List.mem_cons_of_mem _ he))]
        rfl
  cases l with
  | nil => intro _; rfl
  | cons s rest =>
    intro h
    simp only [ipset_cache_add, hloop (s :: rest) (by simp) h]

/-! ## The at-most-one-entry-per-name invariant (C7) -/

/-- C7 counterexample: duplicate names ARE reachable from the empty
cache.  Renaming "a" to "b" while "b" exists (the rename performs no
collision check) leaves two entries named "b"; likewise adding "s1"
twice (the duplicate scan skips the tail node) leaves two entries
named "s1". -/
theorem cache_duplicate_names_reachable :
    (runOps [CacheOp.add "a" T5def Family.inet,
        CacheOp.add "b" T5def Family.inet,
        CacheOp.ren "a" "b"]).map (fun e => e.name) = ["b", "b"] ∧
    (runOps [CacheOp.add "s1" T5def Family.inet,
        CacheOp.add "s1" T5def Family.inet]).map (fun e => e.name) =
      ["s1", "s1"] := by
  decide

/-- A rename whose target name is absent preserves
duplicate-freedom of the names. -/
theorem cache_rename_nodup (a b : String) (l : List CachedSet)
    (hN : (l.map (fun e => e.name)).Nodup) (hb : ∀ e ∈ l, e.name ≠ b) :
    ((ipset_cache_rename a b l).2.map (fun e => e.name)).Nodup := by
  cases hf : findName l a with
  | none => simp only [ipset_cache_rename, hf]; exact hN
  | some i =>
    simp only [ipset_cache_rename, hf]
    rw [map_setName]
    apply nodup_set_fresh _ i b hN
    intro hmem
    obtain ⟨e, he, hbe⟩ := List.mem_map.mp hmem
    exact hb e he hbe

/-- A swap preserves duplicate-freedom of the names: the resulting
name list is a permutation (a transposition) of the original. -/
theorem cache_swap_nodup (a b : String) (l : List CachedSet)
    (hN : (l.map (fun e => e.name)).Nodup) :
    ((ipset_cache_swap a b l).2.map (fun e => e.name)).Nodup := by
  cases hfa : findName l a with
  | none => simp only [ipset_cache_swap, hfa]; exact hN
  | some i =>
    cases hfb : findName l b with
    | none => simp only [ipset_cache_swap, hfa, hfb]; exact hN
    | some j =>
      simp only [ipset_cache_swap, hfa, hfb]
      obtain ⟨ei, hei, heia⟩ := findName_idx l a i hfa
      obtain ⟨ej, hej, hejb⟩ := findName_idx l b j hfb
      rw [map_setName, map_setName]
      have hia : idx (l.map (fun e => e.name)) i = some a := by
        rw [idx_map, hei, Option.map_some', heia]
      have hjb : idx (l.map (fun e => e.name)) j = some b := by
        rw [idx_map, hej, Option.map_some', hejb]
      have hperm := perm_set_set (l.map (fun e => e.name)) i j a b hia hjb
      exact hperm.nodup_iff.mpr hN

/-- C7 amended: every cache state reachable from the empty cache is
free of duplicate names, PROVIDED each `cacheAdd` adds a name not
currently present and each `cacheRename` renames to a name not
currently present.  (Unrestricted, the invariant fails: see the
reachable duplicate states above.) -/
theorem cache_good_reach_nodup (l : List CachedSet) (h : GoodReach l) :
    (l.map (fun e => e.name)).Nodup := by
  induction h with
  | nil => exact List.nodup_nil
  | add l2 nm t f _ hfresh ih =>
    show (((ipset_cache_add nm t f l2).2).map (fun e => e.name)).Nodup
    rw [cache_add_fresh nm t f l2 hfresh, List.map_append, List.nodup_append]
    refine ⟨ih, List.nodup_singleton nm, ?_⟩
    intro x hx hx2
    obtain ⟨e, he, hename⟩ := List.mem_map.mp hx
    simp only [List.map_cons, List.map_nil, List.mem_singleton] at hx2
    exact hfresh e he (hename.trans hx2)
  | del l2 nm _ ih =>
    cases nm with
    | none => exact List.nodup_nil
    | some n =>
      show (((ipset_cache_del (some n) l2).2).map (fun e => e.name)).Nodup
      cases hf : findName l2 n with
      | none => simp only [ipset_cache_del, hf]; exact ih
      | some i =>
        simp only [ipset_cache_del, hf]
        rw [map_eraseAt]
        exact List.Nodup.sublist (eraseAt_sublist _ i) ih
  | ren l2 a b _ hfresh ih => exact cache_rename_nodup a b l2 ih hfresh
  | swp l2 a b _ ih => exact cache_swap_nodup a b l2 ih

/-- Closed instance of `cache_good_reach_nodup`: adding "a" and "b"
and renaming "a" to the fresh name "c" keeps the names
duplicate-free. -/
theorem cache_good_reach_nodup_witness :
    ((applyOp (CacheOp.ren "a" "c") (applyOp (CacheOp.add "b" T5def Family.inet)
      (applyOp (CacheOp.add "a" T5def Family.inet) []))).map
      (fun e => e.name)).Nodup :=
  cache_good_reach_nodup _
    (GoodReach.ren _ "a" "c"
      (GoodReach.add _ "b" T5def Family.inet
        (GoodReach.add _ "a" T5def Family.inet GoodReach.nil (by decide))
        (by decide))
      (by decide))

/-! ## Swap is an involution (C8) -/

/-- C8: on a cache without duplicate names containing entries named
`a` and `b` (with `a` different from `b`), `cacheSwap(a, b)`
succeeds, running it again restores the cache exactly, and each swap
leaves the type and family of every underlying entry (by position)
unchanged - only the name labels move. -/
theorem cache_swap_involution (l : List CachedSet) (a b : String)
    (hN : (l.map (fun e => e.name)).Nodup) (hab : a ≠ b)
    (ha : ∃ e ∈ l, e.name = a) (hb : ∃ e ∈ l, e.name = b) :
    ∃ l1, ipset_cache_swap a b l = (ECode.ok, l1) ∧
      ipset_cache_swap a b l1 = (ECode.ok, l) ∧
      l1.map (fun e => (e.type, e.family)) =
        l.map (fun e => (e.type, e.family)) := by
  obtain ⟨i, hfa⟩ := findName_exists l a ha
  obtain ⟨j, hfb⟩ := findName_exists l b hb
  obtain ⟨ei, hei, heia⟩ := findName_idx l a i hfa
  obtain ⟨ej, hej, hejb⟩ := findName_idx l b j hfb
  have hij : i ≠ j := by
    intro hEq
    rw [hEq, hej] at hei
    injection hei with h2
    exact hab (by rw [← heia, ← h2]; exact hejb)
  have huniq : ∀ k e2, idx l k = some e2 → e2.name = a → k = i := by
    intro k e2 hk hk2
    have h1 : idx (l.map (fun e => e.name)) k = some a := by
      rw [idx_map, hk, Option.map_some', hk2]
    have h2 : idx (l.map (fun e => e.name)) i = some a := by
      rw [idx_map, hei, Option.map_some', heia]
    exact nodup_idx_inj _ hN k i a h1 h2
  have hunib : ∀ k e2, idx l k = some e2 → e2.name = b → k = j := by
    intro k e2 hk hk2
    have h1 : idx (l.map (fun e => e.name)) k = some b := by
      rw [idx_map, hk, Option.map_some', hk2]
    have h2 : idx (l.map (fun e => e.name)) j = some b := by
      rw [idx_map, hej, Option.map_some', hejb]
    exact nodup_idx_inj _ hN k j b h1 h2
  have hl1j : idx (setName (setName l i b) j a) j = some { ej with name := a } := by
    rw [idx_setName, if_pos rfl, idx_setName, if_neg (Ne.symm hij), hej]
    rfl
  have hl1i : idx (setName (setName l i b) j a) i = some { ei with name := b } := by
    rw [idx_setName, if_neg hij, idx_setName, if_pos rfl, hei]
    rfl
  have hf1a : findName (setName (setName l i b) j a) a = some j := by
    apply findName_of _ a j { ej with name := a } hl1j rfl
    intro k hk e2 he2 he2a
    by_cases hki : k = i
    · rw [hki, hl1i] at he2
      injection he2 with h2
      rw [← h2] at he2a
      exact hab he2a.symm
    · have hkj : k ≠ j := by omega
      rw [idx_setName, if_neg hkj, idx_setName, if_neg hki] at he2
      exact hki (huniq k e2 he2 he2a)
  have hf1b : findName (setName (setName l i b) j a) b = some i := by
    apply findName_of _ b i { ei with name := b } hl1i rfl
    intro k hk e2 he2 he2b
    by_cases hkj : k = j
    · rw [hkj, hl1j] at he2
      injection he2 with h2
      rw [← h2] at he2b
      exact hab he2b
    · have hki : k ≠ i := by omega
      rw [idx_setName, if_neg hkj, idx_setName, if_neg hki] at he2
      exact hkj (hunib k e2 he2 he2b)
  refine ⟨setName (setName l i b) j a, ?_, ?_, ?_⟩
  · simp only [ipset_cache_swap, hfa, hfb]
  · simp only [ipset_cache_swap, hf1a, hf1b]
    have hres : setName (setName (setName (setName l i b) j a) j b) i a = l := by
      rw [setName_collapse]
      rw [setName_comm l i j b b hij]
      rw [setName_self l j ej b hej hejb]
      rw [setName_collapse]
      exact setName_self l i ei a hei heia
    rw [hres]
  · rw [map_tf_setName, map_tf_setName]

/-- Closed instance of `cache_swap_involution` on the two-entry cache
holding "a" (type revision 5) and "b" (type revision 3). -/
theorem cache_swap_involution_witness :
    ∃ l1 : List CachedSet, ipset_cache_swap "a" "b"
        [⟨"a", T5def, Family.inet⟩, ⟨"b", T3def, Family.inet6⟩] =
        (ECode.ok, l1) ∧
      ipset_cache_swap "a" "b" l1 =
        (ECode.ok, [⟨"a", T5def, Family.inet⟩, ⟨"b", T3def, Family.inet6⟩]) ∧
      l1.map (fun e => (e.type, e.family)) =
        ([⟨"a", T5def, Family.inet⟩, ⟨"b", T3def, Family.inet6⟩] :
          List CachedSet).map (fun e => (e.type, e.family)) :=
  cache_swap_involution
    [⟨"a", T5def, Family.inet⟩, ⟨"b", T3def, Family.inet6⟩] "a" "b"
    (by decide) (by decide)
    ⟨⟨"a", T5def, Family.inet⟩, by decide, rfl⟩
    ⟨⟨"b", T3def, Family.inet6⟩, by decide, rfl⟩

/-! ## Failed cache mutations leave the cache unchanged (C10) -/

/-- C10: whenever `cacheDel(name)`, `cacheRename(from, to)` or
`cacheSwap(from, to)` fails because a named entry is absent (the
`-EEXIST` return), the cache is returned exactly as it was: no entry
is removed, renamed or partially swapped.  (In the C source the
corresponding unlink / strncpy writes are only reached after the
scans succeed.) -/
theorem cache_not_found_unchanged (l : List CachedSet) (nm a b : String) :
    ((ipset_cache_del (some nm) l).1 = ECode.eexist →
      (ipset_cache_del (some nm) l).2 = l) ∧
    ((ipset_cache_rename a b l).1 = ECode.eexist →
      (ipset_cache_rename a b l).2 = l) ∧
    ((ipset_cache_swap a b l).1 = ECode.eexist →
      (ipset_cache_swap a b l).2 = l) := by
  refine ⟨?_, ?_, ?_⟩
  · intro h
    cases hf : findName l nm with
    | some i => simp only [ipset_cache_del, hf] at h; cases h
    | none => simp only [ipset_cache_del, hf]
  · intro h
    cases hf : findName l a with
    | some i => simp only [ipset_cache_rename, hf] at h; cases h
    | none => simp only [ipset_cache_rename, hf]
  · intro h
    cases hfa : findName l a with
    | none => simp only [ipset_cache_swap, hfa]
    | some i =>
      cases hfb : findName l b with
      | none => simp only [ipset_cache_swap, hfa, hfb]
      | some j => simp only [ipset_cache_swap, hfa, hfb] at h; cases h

/-- Closed instance of `cache_not_found_unchanged`: deleting,
renaming or swapping the absent name "z" on the one-entry cache
["x"] fails and returns the cache unchanged. -/
theorem cache_not_found_unchanged_witness :
    (ipset_cache_del (some "z") [⟨"x", T5def, Family.inet⟩]).2 =
      [⟨"x", T5def, Family.inet⟩] ∧
    (ipset_cache_rename "z" "w" [⟨"x", T5def, Family.inet⟩]).2 =
      [⟨"x", T5def, Family.inet⟩] ∧
    (ipset_cache_swap "z" "x" [⟨"x", T5def, Family.inet⟩]).2 =
      [⟨"x", T5def, Family.inet⟩] :=
  ⟨(cache_not_found_unchanged [⟨"x", T5def, Family.inet⟩] "z" "z" "w").1
      (by decide),
   (cache_not_found_unchanged [⟨"x", T5def, Family.inet⟩] "z" "z" "w").2.1
      (by decide),
   (cache_not_found_unchanged [⟨"x", T5def, Family.inet⟩] "z" "z" "x").2.2
      (by decide)⟩
